import Mathlib

/-!
Verification of the Insider-Terminal pipeline (SEC Form 4 scraper + dashboard
store).  The definitions below are a shallow embedding of the Python source:

* `src/dashboard.py` — the trade store: `deduplicate_trades`, the
  `upload_trades` endpoint's merge (`existing + new` then dedup), and the
  endpoint's control flow (JSON check, API-key check, payload check).
* `src/Scraper.py` — the scraper: `get_form4_urls_from_index` line filtering,
  `extract_value_via_iteration`, `clean_and_extract_xml`, and the body of
  `parse_form4_url` (metadata scan, relationship derivation, transaction
  extraction and filtering).

Text is modelled as `List Char` where index/position reasoning matters
(sanitizer, index lines) and as `String` elsewhere.  Python `None` becomes
`Option`, Python exceptions become `Option`/`Except`, Python floats become `ℚ`.
-/

attribute [local semireducible] Rat.mul Rat.inv Rat.add Rat.sub

/-! ## Trade store (`src/dashboard.py`) -/

/-- A trade record as stored by the dashboard (a JSON dict).  Only the six
fields used by the dedup key are modelled individually; `shares` and `price`
hold the Python `str()` rendering of the stored value (`none` when the key is
absent from the dict).  `extra` stands for every other field of the dict, so
that two records with equal keys can still differ. -/
structure TradeRec where
  date : Option String
  ticker : Option String
  filer : Option String
  code : Option String
  shares : Option String
  price : Option String
  extra : String
deriving DecidableEq, Repr

/-- The composite dedup key of `deduplicate_trades`:
`(trade.get('date'), trade.get('ticker'), trade.get('filer'),
trade.get('code'), str(trade.get('shares', 0.0)), str(trade.get('price', 0.0)))`.
`str(0.0)` is `"0.0"`. -/
def dedupKey (t : TradeRec) :
    Option String × Option String × Option String × Option String × String × String :=
  (t.date, t.ticker, t.filer, t.code, t.shares.getD "0.0", t.price.getD "0.0")

/-- Loop body of `deduplicate_trades`: insert each record into an ordered map
keyed by `dedupKey`, skipping records whose key was already seen.  `seen` is
the set of keys inserted so far; the output lists the kept records in
insertion order (Python dicts preserve insertion order, and
`list(unique_trades.values())` returns values in key-insertion order). -/
def dedupGo (seen : List (Option String × Option String × Option String × Option String × String × String)) :
    List TradeRec → List TradeRec
  | [] => []
  | t :: ts =>
    if dedupKey t ∈ seen then dedupGo seen ts
    else t :: dedupGo (dedupKey t :: seen) ts

/-- `deduplicate_trades(trades)` from `src/dashboard.py`. -/
def deduplicate_trades (trades : List TradeRec) : List TradeRec :=
  dedupGo [] trades

/-- The merge performed by `upload_trades`: `combined_trades =
existing_trades + new_trades` followed by `deduplicate_trades` over the whole
combined list. -/
def mergeStore (existing new : List TradeRec) : List TradeRec :=
  deduplicate_trades (existing ++ new)

/-- The `trades` entry of an upload payload: `payload.get('trades', [])`
either finds a JSON list, finds a non-list value, or finds nothing (in which
case the default `[]` applies). -/
inductive TradesField where
  | absent
  | list (ts : List TradeRec)
  | notList
deriving DecidableEq, Repr

/-- An HTTP request as seen by the `upload_trades` endpoint: whether the body
parses as JSON (`request.is_json`), the `X-API-KEY` header
(`request.headers.get`, `none` when missing), and the payload's `trades`
entry (only meaningful when `isJson` is true). -/
structure UploadRequest where
  isJson : Bool
  apiKey : Option String
  trades : TradesField
deriving DecidableEq, Repr

/-- Control flow of the `upload_trades` endpoint (`src/dashboard.py`):
reject non-JSON bodies with 400, then reject key mismatches with 403, then
reject a non-list `trades` entry with 400, else merge into the store and
answer 200.  Returns the HTTP status and the resulting persisted store. -/
def upload_trades (req : UploadRequest) (serverKey : String)
    (store : List TradeRec) : Nat × List TradeRec :=
  if !req.isJson then (400, store)
  else if req.apiKey ≠ some serverKey then (403, store)
  else
    match req.trades with
    | .notList => (400, store)
    | .absent => (200, mergeStore store [])
    | .list ts => (200, mergeStore store ts)

/-! ## Index filtering (`get_form4_urls_from_index`, `src/Scraper.py`) -/

/-- Python `str.split('|')`: split a line into pipe-delimited fields; the
empty string yields one empty field. -/
def splitOnPipe : List Char → List (List Char)
  | [] => [[]]
  | c :: cs =>
    if c = '|' then [] :: splitOnPipe cs
    else
      match splitOnPipe cs with
      | [] => [[c]]
      | p :: ps => (c :: p) :: ps

/-- One iteration of the index-line loop in `get_form4_urls_from_index`:
`parts = line.split('|')`; if `len(parts) >= 3 and parts[2] == '4'` and then
`len(parts) == 5`, emit `"https://www.sec.gov/Archives/" + parts[4]`,
otherwise emit nothing. -/
def processIndexLine (line : List Char) : List (List Char) :=
  let parts := splitOnPipe line
  if parts.length ≥ 3 ∧ parts.getD 2 [] = "4".toList then
    if parts.length = 5 then
      ["https://www.sec.gov/Archives/".toList ++ parts.getD 4 []]
    else []
  else []

/-- `get_form4_urls_from_index` after a successful download, applied to the
lines of the response body (`response.text.splitlines()`): collect the URL of
every qualifying line, in index order. -/
def get_form4_urls_from_index (lines : List (List Char)) : List (List Char) :=
  lines.flatMap processIndexLine

/-! ## Document sanitizer (`clean_and_extract_xml`, `src/Scraper.py`) -/

/-- Case-insensitive character comparison (`re.IGNORECASE`). -/
def lowerEq (a b : Char) : Bool := a.toLower == b.toLower

/-- Does `text` start with `pat`, case-insensitively? -/
def startsWithCI : List Char → List Char → Bool
  | _, [] => true
  | [], _ :: _ => false
  | c :: cs, p :: ps => lowerEq c p && startsWithCI cs ps

/-- Index of the leftmost case-insensitive occurrence of `pat` in `text`
(`re.search` with a pattern free of regex metacharacters), or `none`. -/
def findCI : List Char → List Char → Option Nat
  | [], p => if p.isEmpty then some 0 else none
  | c :: cs, p =>
    if startsWithCI (c :: cs) p then some 0
    else (findCI cs p).map (· + 1)

/-- Length of the match of the declaration pattern (regex
`<\x3f xml [not-gt]* \x3f >`, case-insensitive) anchored at the start of
`cs`, or `none`.  With a greedy `[^>]*` the match, when it exists, runs up to
the first `'>'` after the `<?xml` head, and requires the character right
before that `'>'` to be `'?'`. -/
def declMatchLen (cs : List Char) : Option Nat :=
  if startsWithCI cs ("<?xml".toList) then
    let rest := cs.drop 5
    let run := rest.takeWhile (fun c => c ≠ '>')
    if run.length < rest.length ∧ run.getLast? = some '?' then
      some (5 + run.length + 1)
    else none
  else none

/-- Left-to-right scan of `re.sub`: at each position, if the declaration
pattern matches, delete the match and resume after it, else keep the
character and move on.  `fuel` bounds the recursion; `cs.length` suffices
because every step consumes at least one character. -/
def removeXmlDeclsGo : Nat → List Char → List Char
  | 0, cs => cs
  | _ + 1, [] => []
  | fuel + 1, c :: cs =>
    match declMatchLen (c :: cs) with
    | some n => removeXmlDeclsGo fuel ((c :: cs).drop n)
    | none => c :: removeXmlDeclsGo fuel cs

/-- `re.sub(declaration-pattern, '', cleaned_xml, flags=re.IGNORECASE)`. -/
def removeXmlDecls (cs : List Char) : List Char :=
  removeXmlDeclsGo cs.length cs

/-- Python `str.strip()`: drop whitespace from both ends. -/
def trimChars (cs : List Char) : List Char :=
  ((cs.dropWhile Char.isWhitespace).reverse.dropWhile Char.isWhitespace).reverse

/-- The opening root-tag marker searched for by `clean_and_extract_xml`. -/
def startTagChars : List Char := "<ownershipDocument".toList

/-- The closing root-tag marker searched for by `clean_and_extract_xml`. -/
def endTagChars : List Char := "</ownershipDocument>".toList

/-- `clean_and_extract_xml(xml_text)` from `src/Scraper.py`: find the first
case-insensitive occurrence of the opening marker (`none` models the
`ValueError` raised when it is absent); slice up to the end of the first
occurrence of the closing marker when present, else to end-of-input; remove
every XML-declaration match; strip surrounding whitespace. -/
def clean_and_extract_xml (xmlText : List Char) : Option (List Char) :=
  match findCI xmlText startTagChars with
  | none => none
  | some s =>
    let cleaned :=
      match findCI xmlText endTagChars with
      | some e => (xmlText.take (e + endTagChars.length)).drop s
      | none => xmlText.drop s
    some (trimChars (removeXmlDecls cleaned))

/-! ## Element trees and field extraction (`src/Scraper.py`) -/

/-- A parsed XML element as `xml.etree.ElementTree` presents it: a
fully-qualified tag (namespace prefix included, e.g. `{ns}issuerName`), the
optional text content, and the child elements in document order. -/
inductive Elem where
  | node (tag : List Char) (text : Option (List Char)) (children : List Elem)

/-- The element's fully-qualified tag. -/
def Elem.tag : Elem → List Char
  | .node t _ _ => t

/-- The element's text content (`None` when absent). -/
def Elem.text : Elem → Option (List Char)
  | .node _ x _ => x

/-- The element's children in document order. -/
def Elem.children : Elem → List Elem
  | .node _ _ cs => cs

mutual

/-- `element.iter()`: the element followed by all its descendants in
document order (depth-first). -/
def iterElem : Elem → List Elem
  | .node t x cs => .node t x cs :: iterChildren cs

/-- Document-order traversal of a list of sibling subtrees. -/
def iterChildren : List Elem → List Elem
  | [] => []
  | c :: cs => iterElem c ++ iterChildren cs

end

/-- Python truthiness of `element.text`: present and non-empty. -/
def textTruthy : Option (List Char) → Bool
  | none => false
  | some s => !s.isEmpty

/-- Uppercasing, `str.upper()` on the ASCII content these documents carry. -/
def toUpperChars (s : List Char) : List Char := s.map Char.toUpper

/-- `element.find('.//t')`: first descendant (the element itself excluded)
whose tag is exactly `t`, in document order. -/
def findDescendant (e : Elem) (t : List Char) : Option Elem :=
  (iterChildren e.children).find? (fun d => d.tag == t)

/-- `element.findall('.//t')`: all descendants with tag exactly `t`, in
document order. -/
def findallDescendant (e : Elem) (t : List Char) : List Elem :=
  (iterChildren e.children).filter (fun d => d.tag == t)

/-- Numeric value of a digit string. -/
def digitsVal (ds : List Char) : Nat :=
  ds.foldl (fun n c => n * 10 + (c.toNat - '0'.toNat)) 0

/-- Python's built-in `float()` on an already-stripped literal, modelled over
`ℚ`: optional sign, digits with an optional fractional part (at least one
digit overall), optional `e`/`E` exponent.  The non-finite forms
(`inf`/`nan`), underscore digit separators and hex floats are outside this
model; on them it answers `none` where Python would succeed, which no claim
below depends on. -/
def parsePyFloat (cs : List Char) : Option ℚ :=
  let sgnRest : ℚ × List Char :=
    match cs with
    | '+' :: r => (1, r)
    | '-' :: r => (-1, r)
    | r => (1, r)
  let sgn := sgnRest.1
  let cs1 := sgnRest.2
  let intDs := cs1.takeWhile Char.isDigit
  let cs2 := cs1.drop intDs.length
  let fracRest : List Char × List Char :=
    match cs2 with
    | '.' :: r => (r.takeWhile Char.isDigit, r.drop (r.takeWhile Char.isDigit).length)
    | r => ([], r)
  let fracDs := fracRest.1
  let cs3 := fracRest.2
  if intDs.isEmpty && fracDs.isEmpty then none
  else
    let mant : ℚ := (digitsVal intDs : ℚ) + (digitsVal fracDs : ℚ) / ((10 : ℚ) ^ fracDs.length)
    match cs3 with
    | [] => some (sgn * mant)
    | e :: r =>
      if e = 'e' ∨ e = 'E' then
        let esgnRest : Int × List Char :=
          match r with
          | '+' :: r2 => (1, r2)
          | '-' :: r2 => (-1, r2)
          | r2 => (1, r2)
        let eDs := esgnRest.2.takeWhile Char.isDigit
        let rest := esgnRest.2.drop eDs.length
        if eDs.isEmpty || !rest.isEmpty then none
        else some (sgn * mant * (10 : ℚ) ^ (esgnRest.1 * (digitsVal eDs : Int)))
      else none

/-- `extract_value_via_iteration(parent_element, target_tag_name)` from
`src/Scraper.py`: find the first descendant-or-self whose tag ends with the
target name (`None` — here `none` — when absent); inside it find the first
element whose tag ends with `value` and has truthy text; strip the text and,
if non-empty, remove commas, strip again and parse as a float, resolving a
parse failure — like a missing or empty value — to `0.0`. -/
def extract_value_via_iteration (parentElement : Elem) (targetTagName : List Char) :
    Option ℚ :=
  match (iterElem parentElement).find? (fun e => targetTagName.isSuffixOf e.tag) with
  | none => none
  | some container =>
    match (iterElem container).find?
        (fun e => ("value".toList.isSuffixOf e.tag) && textTruthy e.text) with
    | none => some 0
    | some el =>
      let v := trimChars (el.text.getD [])
      if v.isEmpty then some 0
      else
        match parsePyFloat (trimChars (v.filter (fun c => c ≠ ','))) with
        | some q => some q
        | none => some 0

/-! ## Filing metadata and transactions (`parse_form4_url`, `src/Scraper.py`) -/

/-- The four metadata variables of `parse_form4_url` with their initial
values `'UNKNOWN'`, `'N/A'`, `'UNKNOWN'`, `'N/A'`. -/
structure MetaAcc where
  issuer_name : List Char
  issuer_ticker : List Char
  filer_name : List Char
  filer_relationship : List Char

/-- One iteration of the metadata loop: an `if`/`elif` chain that overwrites
the matching variable whenever the element's tag ends with the corresponding
suffix and its text is truthy. -/
def metaStep (a : MetaAcc) (e : Elem) : MetaAcc :=
  if "issuerName".toList.isSuffixOf e.tag && textTruthy e.text then
    { a with issuer_name := trimChars (e.text.getD []) }
  else if "issuerTradingSymbol".toList.isSuffixOf e.tag && textTruthy e.text then
    { a with issuer_ticker := toUpperChars (trimChars (e.text.getD [])) }
  else if "rptOwnerName".toList.isSuffixOf e.tag && textTruthy e.text then
    { a with filer_name := trimChars (e.text.getD []) }
  else if "rptOwnerTitle".toList.isSuffixOf e.tag && textTruthy e.text then
    { a with filer_relationship := trimChars (e.text.getD []) }
  else a

/-- The metadata loop `for element in root.iter(): ...` of
`parse_form4_url`. -/
def scanMetadata (root : Elem) : MetaAcc :=
  (iterElem root).foldl metaStep
    ⟨"UNKNOWN".toList, "N/A".toList, "UNKNOWN".toList, "N/A".toList⟩

/-- One boolean-flag probe, e.g. `root.find('.//isDirector') is not None and
root.find('.//isDirector').text.strip() == '1'`.  A flag element whose text
is `None` makes `.strip()` raise `AttributeError`, modelled as `.error`. -/
def checkFlag (root : Elem) (t : List Char) : Except Unit Bool :=
  match findDescendant root t with
  | none => .ok false
  | some e =>
    match e.text with
    | none => .error ()
    | some s => .ok (trimChars s == "1".toList)

/-- `", ".join(flags)`. -/
def joinComma (ls : List (List Char)) : List Char :=
  (List.intersperse ", ".toList ls).flatten

/-- The relationship-derivation block of `parse_form4_url`: when the scanned
title is `'N/A'` or empty, probe `isDirector`, `isOfficer`,
`isTenPercentOwner` and `isOther` in that order (each probe can raise), let
`isOther` contribute the stripped `otherText` when truthy or the placeholder
`'Other (Filer Specified)'`, join the collected labels with `", "`, and fall
back to `'Other'` when none were collected. -/
def deriveRelationship (root : Elem) (current : List Char) :
    Except Unit (List Char) :=
  if current == "N/A".toList || current.isEmpty then do
    let d ← checkFlag root "isDirector".toList
    let o ← checkFlag root "isOfficer".toList
    let tp ← checkFlag root "isTenPercentOwner".toList
    let oth ← checkFlag root "isOther".toList
    let flags : List (List Char) :=
      (if d then ["Director".toList] else []) ++
      (if o then ["Officer".toList] else []) ++
      (if tp then ["10% Owner".toList] else []) ++
      (if oth then
        match findDescendant root "otherText".toList with
        | some e =>
          if textTruthy e.text then [trimChars (e.text.getD [])]
          else ["Other (Filer Specified)".toList]
        | none => ["Other (Filer Specified)".toList]
      else [])
    if flags.isEmpty then pure "Other".toList else pure (joinComma flags)
  else .ok current

/-- The hard-coded EDGAR namespace prefix `NAMESPACE` of `src/Scraper.py`. -/
def edgarNS : List Char := "\x7bhttp://www.sec.gov/edgar/v1\x7d".toList

/-- Transaction collection of `parse_form4_url`: namespace-qualified
`findall` with unqualified fallback (Python `or` picks the second list when
the first is empty), derivative transactions appended after non-derivative
ones. -/
def collectTransactions (root : Elem) : List Elem :=
  let nd :=
    let a := findallDescendant root (edgarNS ++ "nonDerivativeTransaction".toList)
    if a.isEmpty then findallDescendant root "nonDerivativeTransaction".toList else a
  let dv :=
    let a := findallDescendant root (edgarNS ++ "derivativeTransaction".toList)
    if a.isEmpty then findallDescendant root "derivativeTransaction".toList else a
  nd ++ dv

/-- The per-transaction `transaction_code` / `transaction_date` variables. -/
structure CodeDate where
  code : List Char
  date : List Char

/-- One iteration of the code/date loop over `transaction.iter()`:
`transactionCode` text (stripped, uppercased) overwrites the code;
a `transactionDate` element's first exact `value` descendant with truthy
text overwrites the date. -/
def codeDateStep (cd : CodeDate) (e : Elem) : CodeDate :=
  if "transactionCode".toList.isSuffixOf e.tag && textTruthy e.text then
    { cd with code := toUpperChars (trimChars (e.text.getD [])) }
  else if "transactionDate".toList.isSuffixOf e.tag then
    match findDescendant e "value".toList with
    | some dv => if textTruthy dv.text then { cd with date := trimChars (dv.text.getD []) } else cd
    | none => cd
  else cd

/-- The code/date extraction loop, starting from the `'N/A'` sentinels. -/
def extractCodeDate (tx : Elem) : CodeDate :=
  (iterElem tx).foldl codeDateStep ⟨"N/A".toList, "N/A".toList⟩

/-- A Trade record as built by `parse_form4_url`. -/
structure Trade where
  date : List Char
  code : List Char
  ticker : List Char
  shares : ℚ
  price : ℚ
  value : ℚ
  company_name : List Char
  filer : List Char
  person_title : List Char
  is_value_trade : Bool
deriving DecidableEq, Repr

/-- `TARGET_CODES = ['P', 'S', 'M', 'X', 'V']`. -/
def TARGET_CODES : List (List Char) :=
  ["P".toList, "S".toList, "M".toList, "X".toList, "V".toList]

/-- `VALUE_CODES = ['P', 'S']`. -/
def VALUE_CODES : List (List Char) := ["P".toList, "S".toList]

/-- `MIN_TRADE_VALUE = 1000000.00`. -/
def MIN_TRADE_VALUE : ℚ := 1000000

/-- The body of the per-transaction loop of `parse_form4_url`: skip
(`.ok none`) transactions whose code is outside `TARGET_CODES` and those
whose extracted shares equal `0.0`; extract the price; when either extraction
returned Python `None`, the multiplication `shares * price` raises
`TypeError`, modelled as `.error ()`; otherwise build the trade and apply the
value filter — value trades need `value >= MIN_TRADE_VALUE`, non-value
trades are always appended. -/
def processTransaction (m : MetaAcc) (tx : Elem) : Except Unit (Option Trade) :=
  let cd := extractCodeDate tx
  if cd.code ∉ TARGET_CODES then .ok none
  else
    let shares? := extract_value_via_iteration tx "transactionShares".toList
    if shares? = some 0 then .ok none
    else
      let price? := extract_value_via_iteration tx "transactionPricePerShare".toList
      match shares?, price? with
      | some s, some p =>
        let v := s * p
        let ivt : Bool := decide (cd.code ∈ VALUE_CODES)
        let tr : Trade :=
          ⟨cd.date, cd.code, m.issuer_ticker, s, p, v,
           m.issuer_name, m.filer_name, m.filer_relationship, ivt⟩
        if ivt && decide (v ≥ MIN_TRADE_VALUE) then .ok (some tr)
        else if !ivt then .ok (some tr)
        else .ok none
      | _, _ => .error ()

/-- The transaction loop with the surrounding `try`: an exception inside the
loop abandons the remaining transactions, and the `trades` accumulated so far
are what `parse_form4_url` returns. -/
def processTransactions (m : MetaAcc) : List Elem → List Trade
  | [] => []
  | tx :: txs =>
    match processTransaction m tx with
    | .error _ => []
    | .ok none => processTransactions m txs
    | .ok (some t) => t :: processTransactions m txs

/-- `parse_form4_url` from the point where the element tree exists: metadata
scan, relationship derivation (an exception there yields the still-empty
trade list), then the transaction loop. -/
def processFiling (root : Elem) : List Trade :=
  let acc := scanMetadata root
  match deriveRelationship root acc.filer_relationship with
  | .error _ => []
  | .ok rel =>
    processTransactions { acc with filer_relationship := rel }
      (collectTransactions root)

/-- `parse_form4_url` end to end.  The network fetch and
`xml.etree.ElementTree.fromstring` are external effects, passed in as the
already-resolved download result (`none` = request exception) and the tree
builder (`none` = `ParseError`); each failure is caught and yields the empty
trade list, matching the `except` arms of the source. -/
def parseForm4 (buildTree : List Char → Option Elem)
    (fetched : Option (List Char)) : List Trade :=
  match fetched with
  | none => []
  | some txt =>
    match clean_and_extract_xml txt with
    | none => []
    | some cleaned =>
      match buildTree cleaned with
      | none => []
      | some root => processFiling root

/-! ## Lemmas about the dedup merge -/

/-- `dedupGo` only cares about membership in `seen`, not its arrangement. -/
theorem dedupGo_congr {seen₁ seen₂ : List _} (l : List TradeRec)
    (h : ∀ k, k ∈ seen₁ ↔ k ∈ seen₂) : dedupGo seen₁ l = dedupGo seen₂ l := by
  induction l generalizing seen₁ seen₂ with
  | nil => rfl
  | cons t ts ih =>
    simp only [dedupGo]
    by_cases hm : dedupKey t ∈ seen₁
    · rw [if_pos hm, if_pos ((h _).mp hm)]
      exact ih h
    · rw [if_neg hm, if_neg (fun hc => hm ((h _).mpr hc))]
      refine congrArg _ (ih fun k => ?_)
      simp only [List.mem_cons]
      exact or_congr Iff.rfl (h k)

/-- Records already deduplicated against `seen` pass through a second
dedup against the same `seen` unchanged, whatever follows them. -/
theorem dedupGo_dedupGo_append (seen : List _) (l m : List TradeRec) :
    dedupGo seen (dedupGo seen l ++ m) = dedupGo seen (l ++ m) := by
  induction l generalizing seen with
  | nil => rfl
  | cons t ts ih =>
    simp only [dedupGo, List.cons_append, List.append_eq]
    by_cases hm : dedupKey t ∈ seen
    · rw [if_pos hm, if_pos hm, ih]
    · simp only [if_neg hm, List.cons_append, List.append_eq, dedupGo, ih]

/-- A tail whose keys were all seen already contributes nothing. -/
theorem dedupGo_all_seen (seen : List _) (m : List TradeRec)
    (h : ∀ t ∈ m, dedupKey t ∈ seen) : dedupGo seen m = [] := by
  induction m with
  | nil => rfl
  | cons t ts ih =>
    simp only [dedupGo, if_pos (h t (List.mem_cons_self t ts))]
    exact ih fun u hu => h u (List.mem_cons_of_mem t hu)

/-- Appending records whose keys all occur earlier (in `seen` or in `l`)
does not change the dedup result. -/
theorem dedupGo_append_absorb (seen : List _) (l m : List TradeRec)
    (h : ∀ t ∈ m, dedupKey t ∈ seen ∨ dedupKey t ∈ l.map dedupKey) :
    dedupGo seen (l ++ m) = dedupGo seen l := by
  induction l generalizing seen with
  | nil =>
    simp only [List.nil_append, dedupGo]
    exact dedupGo_all_seen seen m fun t ht => (h t ht).resolve_right (by simp)
  | cons t ts ih =>
    simp only [List.cons_append, dedupGo]
    by_cases hm : dedupKey t ∈ seen
    · rw [if_pos hm, if_pos hm]
      refine ih seen fun u hu => ?_
      rcases h u hu with hs | hl
      · exact Or.inl hs
      · simp only [List.map_cons, List.mem_cons] at hl
        rcases hl with heq | hts
        · exact Or.inl (heq ▸ hm)
        · exact Or.inr hts
    · rw [if_neg hm, if_neg hm]
      refine congrArg _ (ih (dedupKey t :: seen) fun u hu => ?_)
      rcases h u hu with hs | hl
      · exact Or.inl (List.mem_cons_of_mem _ hs)
      · simp only [List.map_cons, List.mem_cons] at hl
        rcases hl with heq | hts
        · exact Or.inl (heq ▸ List.mem_cons_self _ _)
        · exact Or.inr hts

/-- Deduplication drops records without reordering the kept ones. -/
theorem dedupGo_sublist (seen : List _) (l : List TradeRec) :
    (dedupGo seen l).Sublist l := by
  induction l generalizing seen with
  | nil => exact List.Sublist.refl []
  | cons t ts ih =>
    simp only [dedupGo]
    by_cases hm : dedupKey t ∈ seen
    · rw [if_pos hm]
      exact (ih seen).cons t
    · rw [if_neg hm]
      exact (ih _).cons₂ t

/-- For a key not yet seen, the first kept record with that key is the first
record with that key in the input. -/
theorem dedupGo_find? (seen : List _) (l : List TradeRec)
    (k : Option String × Option String × Option String × Option String × String × String)
    (hk : k ∉ seen) :
    (dedupGo seen l).find? (fun t => decide (dedupKey t = k)) =
      l.find? (fun t => decide (dedupKey t = k)) := by
  induction l generalizing seen with
  | nil => rfl
  | cons t ts ih =>
    simp only [dedupGo]
    by_cases hm : dedupKey t ∈ seen
    · rw [if_pos hm]
      have hne : dedupKey t ≠ k := fun h => hk (h ▸ hm)
      rw [ih seen hk, List.find?_cons_of_neg _ (by simpa using hne)]
    · rw [if_neg hm]
      by_cases heq : dedupKey t = k
      · rw [List.find?_cons_of_pos _ (by simpa using heq),
          List.find?_cons_of_pos _ (by simpa using heq)]
      · rw [List.find?_cons_of_neg _ (by simpa using heq),
          List.find?_cons_of_neg _ (by simpa using heq)]
        exact ih _ (by simp only [List.mem_cons, not_or]; exact ⟨fun h => heq h.symm, hk⟩)

/-! ## C2 and C3: properties of the dedup merge -/

/-- C2: the dedup merge is idempotent — `merge(merge(S, B), B) = merge(S, B)`
for every persisted store `S` and incoming batch `B`; re-running the merge
over its own output with the same input adds no records and changes none.
Proved as equality of the resulting record lists, which implies equality as
sets. -/
theorem c2_merge_idempotent (S B : List TradeRec) :
    mergeStore (mergeStore S B) B = mergeStore S B := by
  unfold mergeStore deduplicate_trades
  rw [dedupGo_dedupGo_append]
  exact dedupGo_append_absorb [] (S ++ B) B fun t ht =>
    Or.inr (List.mem_map_of_mem dedupKey (List.mem_append_right S ht))

/-- C3: the merge preserves first occurrences — when a record with dedup key
`k` exists in the store `S`, the merged result's record for `k` (its first
record with that key) is `S`'s record for `k`, even when the batch `B`
carries a same-key record with different fields; and the merged result lists
its records in first-insertion order (it is a sublist of `S ++ B`). -/
theorem c3_merge_first_occurrence (S B : List TradeRec)
    (k : Option String × Option String × Option String × Option String × String × String)
    (hk : k ∈ S.map dedupKey) :
    (mergeStore S B).find? (fun t => decide (dedupKey t = k)) =
      S.find? (fun t => decide (dedupKey t = k))
    ∧ (mergeStore S B).Sublist (S ++ B) := by
  constructor
  · unfold mergeStore deduplicate_trades
    rw [dedupGo_find? [] (S ++ B) k (by simp), List.find?_append]
    obtain ⟨t, ht, rfl⟩ := List.mem_map.mp hk
    cases hf : S.find? (fun u => decide (dedupKey u = dedupKey t)) with
    | none =>
      exact absurd (List.find?_eq_none.mp hf t ht) (by simp)
    | some u => rfl
  · exact dedupGo_sublist [] (S ++ B)

/-- A sample stored record. -/
def recA : TradeRec :=
  ⟨some "2025-01-06", some "AAPL", some "Doe John", some "P",
   some "1000.0", some "25.5", "company A"⟩

/-- A batch record with the same dedup key as `recA` but different other
fields. -/
def recB : TradeRec := { recA with extra := "company B renamed" }

/-- Witness for C3 at a concrete store and batch: the key of `recA` occurs in
the store, and the merged result's record for it is the store's `recA`. -/
theorem c3_merge_first_occurrence_witness :
    dedupKey recA ∈ [recA].map dedupKey
    ∧ ((mergeStore [recA] [recB]).find? (fun t => decide (dedupKey t = dedupKey recA)) =
        [recA].find? (fun t => decide (dedupKey t = dedupKey recA))
      ∧ (mergeStore [recA] [recB]).Sublist ([recA] ++ [recB])) :=
  ⟨by decide, c3_merge_first_occurrence [recA] [recB] (dedupKey recA) (by decide)⟩

/-! ## C10: the upload endpoint validates the body before authenticating -/

/-- C10: `upload_trades` checks `request.is_json` before the API key — a
non-JSON body always answers 400 regardless of the `X-API-KEY` header, and a
403 is only ever produced for a request whose body is JSON. -/
theorem c10_json_before_auth (req : UploadRequest) (serverKey : String)
    (store : List TradeRec) :
    (req.isJson = false → (upload_trades req serverKey store).1 = 400)
    ∧ ((upload_trades req serverKey store).1 = 403 → req.isJson = true) := by
  obtain ⟨j, ak, tf⟩ := req
  cases j with
  | false =>
    refine ⟨fun _ => rfl, fun h => ?_⟩
    simp only [upload_trades, Bool.not_false, if_true] at h
    exact absurd h (by decide)
  | true =>
    exact ⟨fun h => by simp at h, fun _ => rfl⟩

/-- Witness for C10: a concrete non-JSON request with a wrong key is answered
400, not 403. -/
theorem c10_json_before_auth_witness :
    (UploadRequest.mk false (some "wrong-key") .notList).isJson = false
    ∧ (upload_trades ⟨false, some "wrong-key", .notList⟩ "server-key" []).1 = 400 :=
  ⟨rfl, (c10_json_before_auth ⟨false, some "wrong-key", .notList⟩ "server-key" []).1 rfl⟩

/-! ## C6: index-line filtering -/

/-- The per-line behaviour of the index filter in closed form: a line yields
its URL exactly when it splits into exactly five pipe-delimited fields and
the third field is `4`. -/
theorem processIndexLine_eq (line : List Char) :
    processIndexLine line =
      (if (splitOnPipe line).length = 5 ∧ (splitOnPipe line).getD 2 [] = "4".toList then
        ["https://www.sec.gov/Archives/".toList ++ (splitOnPipe line).getD 4 []]
      else []) := by
  simp only [processIndexLine]
  by_cases h5 : (splitOnPipe line).length = 5
  · by_cases h4 : (splitOnPipe line).getD 2 [] = "4".toList
    · rw [if_pos ⟨by omega, h4⟩, if_pos h5, if_pos ⟨h5, h4⟩]
    · rw [if_neg (fun hc => h4 hc.2), if_neg (fun hc => h4 hc.2)]
  · by_cases h3 : (splitOnPipe line).length ≥ 3 ∧ (splitOnPipe line).getD 2 [] = "4".toList
    · rw [if_pos h3, if_neg h5, if_neg (fun hc => h5 hc.1)]
    · rw [if_neg h3, if_neg (fun hc => h3 ⟨by omega, hc.2⟩)]

/-- C6 counterexample: the line `a|b|4|d|e|f` has six pipe-delimited fields
(so at least five) and its third field is exactly `4`, yet
`get_form4_urls_from_index` emits no URL for it — the code requires exactly
five fields, not at least five. -/
theorem c6_index_filter_counterexample :
    (splitOnPipe "a|b|4|d|e|f".toList).length ≥ 5
    ∧ (splitOnPipe "a|b|4|d|e|f".toList).getD 2 [] = "4".toList
    ∧ get_form4_urls_from_index ["a|b|4|d|e|f".toList] = [] := by decide

/-- C6 amended: a line of the downloaded index yields a filing URL if and
only if its third pipe-delimited field exactly equals `4` and the line has
exactly five pipe-delimited fields, the URL being
`https://www.sec.gov/Archives/` plus the fifth field; qualifying URLs are
emitted in index order. -/
theorem c6_index_filter_amended :
    (∀ lines : List (List Char),
      get_form4_urls_from_index lines = lines.flatMap (fun line =>
        if (splitOnPipe line).length = 5 ∧ (splitOnPipe line).getD 2 [] = "4".toList then
          ["https://www.sec.gov/Archives/".toList ++ (splitOnPipe line).getD 4 []]
        else []))
    ∧ (∀ line : List Char,
        get_form4_urls_from_index [line] ≠ [] ↔
          ((splitOnPipe line).length = 5 ∧ (splitOnPipe line).getD 2 [] = "4".toList)) := by
  have hmain : ∀ lines : List (List Char),
      get_form4_urls_from_index lines = lines.flatMap (fun line =>
        if (splitOnPipe line).length = 5 ∧ (splitOnPipe line).getD 2 [] = "4".toList then
          ["https://www.sec.gov/Archives/".toList ++ (splitOnPipe line).getD 4 []]
        else []) := by
    intro lines
    induction lines with
    | nil => rfl
    | cons l ls ih =>
      simp only [get_form4_urls_from_index, List.flatMap_cons] at ih ⊢
      rw [processIndexLine_eq, ih]
  refine ⟨hmain, fun line => ?_⟩
  rw [hmain [line]]
  by_cases hc : (splitOnPipe line).length = 5 ∧ (splitOnPipe line).getD 2 [] = "4".toList
  · simp [hc]
  · simp [hc]

/-! ## C7: sanitizer contract -/

/-- `findCI` misses exactly when no position of the text starts a
case-insensitive occurrence of the pattern. -/
theorem findCI_eq_none_iff (cs pat : List Char) :
    findCI cs pat = none ↔ ∀ i, startsWithCI (cs.drop i) pat = false := by
  induction cs with
  | nil =>
    simp only [findCI]
    by_cases hp : pat.isEmpty
    · rw [if_pos hp]
      constructor
      · intro h; exact absurd h (by simp)
      · intro h
        have h0 := h 0
        rw [List.drop_nil] at h0
        rw [List.isEmpty_iff.mp hp] at h0
        simp [startsWithCI] at h0
    · rw [if_neg hp]
      refine ⟨fun _ i => ?_, fun _ => rfl⟩
      rw [List.drop_nil]
      cases pat with
      | nil => simp at hp
      | cons p ps => rfl
  | cons c cs ih =>
    simp only [findCI]
    by_cases hs : startsWithCI (c :: cs) pat
    · rw [if_pos hs]
      constructor
      · intro h; exact absurd h (by simp)
      · intro h
        have h0 := h 0
        rw [List.drop_zero] at h0
        rw [hs] at h0
        cases h0
    · rw [if_neg hs]
      rw [Option.map_eq_none', ih]
      constructor
      · intro h i
        cases i with
        | zero =>
          rw [List.drop_zero]
          exact Bool.eq_false_iff.mpr hs
        | succ j =>
          rw [List.drop_succ_cons]
          exact h j
      · intro h j
        have := h (j + 1)
        rw [List.drop_succ_cons] at this
        exact this

/-- C7: `clean_and_extract_xml` signals a malformed document (raises) exactly
when the text contains no case-insensitive occurrence of the opening marker
`<ownershipDocument`; and when the opening marker is present at position `s`
but the closing marker `</ownershipDocument>` is absent, it returns the text
from `s` to end-of-input with the XML declarations removed and surrounding
whitespace stripped — a degraded result instead of a failure. -/
theorem c7_sanitizer_contract (txt : List Char) :
    (clean_and_extract_xml txt = none ↔
      ∀ i, startsWithCI (txt.drop i) startTagChars = false)
    ∧ (∀ s, findCI txt startTagChars = some s →
        findCI txt endTagChars = none →
        clean_and_extract_xml txt =
          some (trimChars (removeXmlDecls (txt.drop s)))) := by
  constructor
  · rw [← findCI_eq_none_iff]
    unfold clean_and_extract_xml
    cases h : findCI txt startTagChars with
    | none => simp
    | some s => simp
  · intro s hs he
    unfold clean_and_extract_xml
    rw [hs, he]

/-- Witness for C7 on a concrete text whose opening marker appears (in mixed
case) at index 2 and whose closing marker is absent. -/
theorem c7_sanitizer_contract_witness :
    findCI "ab<OWNERSHIPdocument>xy".toList startTagChars = some 2
    ∧ findCI "ab<OWNERSHIPdocument>xy".toList endTagChars = none
    ∧ clean_and_extract_xml "ab<OWNERSHIPdocument>xy".toList =
        some (trimChars (removeXmlDecls ("ab<OWNERSHIPdocument>xy".toList.drop 2))) :=
  ⟨by decide, by decide,
    (c7_sanitizer_contract "ab<OWNERSHIPdocument>xy".toList).2 2 (by decide) (by decide)⟩

/-! ## C1: the nested-value extraction primitive -/

/-- C1 counterexample: on a tree with no element whose tag ends in the
container suffix, `extract_value_via_iteration` returns Python `None`
(modelled `none`), not `0.0` — refuting the claim that an absent container
resolves to `0.0`. -/
theorem c1_extract_container_absent_counterexample :
    (∀ e ∈ iterElem (Elem.node "doc".toList none []),
      "transactionShares".toList.isSuffixOf e.tag = false)
    ∧ extract_value_via_iteration (Elem.node "doc".toList none [])
        "transactionShares".toList = none
    ∧ extract_value_via_iteration (Elem.node "doc".toList none [])
        "transactionShares".toList ≠ some 0 := by decide

/-- C1 amended: `extract_value_via_iteration` is total and never raises; it
returns `none` (Python `None`) when no element's tag ends with the container
suffix; it returns `0.0` when the container is found but holds no `value`
descendant with non-empty text, when the found text strips to the empty
string, and when numeric parsing of the cleaned text fails; otherwise it
returns the parsed decimal of the stripped text with thousands separators
removed. -/
theorem c1_extract_value_amended (parent : Elem) (target : List Char) :
    ((∀ e ∈ iterElem parent, target.isSuffixOf e.tag = false) →
      extract_value_via_iteration parent target = none)
    ∧ (∀ c, (iterElem parent).find? (fun e => target.isSuffixOf e.tag) = some c →
        ((∀ e ∈ iterElem c,
            ("value".toList.isSuffixOf e.tag && textTruthy e.text) = false) →
          extract_value_via_iteration parent target = some 0)
        ∧ (∀ el, (iterElem c).find?
              (fun e => "value".toList.isSuffixOf e.tag && textTruthy e.text) = some el →
            (trimChars (el.text.getD []) = [] →
              extract_value_via_iteration parent target = some 0)
            ∧ (trimChars (el.text.getD []) ≠ [] →
                parsePyFloat
                  (trimChars ((trimChars (el.text.getD [])).filter (fun ch => ch ≠ ','))) =
                    none →
                extract_value_via_iteration parent target = some 0)
            ∧ (∀ q, trimChars (el.text.getD []) ≠ [] →
                parsePyFloat
                  (trimChars ((trimChars (el.text.getD [])).filter (fun ch => ch ≠ ','))) =
                    some q →
                extract_value_via_iteration parent target = some q))) := by
  constructor
  · intro h
    have hnone : (iterElem parent).find? (fun e => target.isSuffixOf e.tag) = none :=
      List.find?_eq_none.mpr fun e he => by rw [h e he]; exact Bool.false_ne_true
    unfold extract_value_via_iteration
    rw [hnone]
  · intro c hc
    refine ⟨fun h => ?_, fun el hel => ?_⟩
    · have hnone : (iterElem c).find?
          (fun e => "value".toList.isSuffixOf e.tag && textTruthy e.text) = none :=
        List.find?_eq_none.mpr fun e he => by rw [h e he]; exact Bool.false_ne_true
      unfold extract_value_via_iteration
      rw [hc]
      simp only [hnone]
    · refine ⟨fun hemp => ?_, fun hne hparse => ?_, fun q hne hparse => ?_⟩
      · unfold extract_value_via_iteration
        rw [hc]
        simp only [hel, hemp, List.isEmpty_nil, if_true]
      · unfold extract_value_via_iteration
        rw [hc]
        simp only [hel, List.isEmpty_eq_true]
        rw [if_neg hne, hparse]
      · unfold extract_value_via_iteration
        rw [hc]
        simp only [hel, List.isEmpty_eq_true]
        rw [if_neg hne, hparse]

/-- A sample container holding an unparseable value text. -/
def sharesAbc : Elem :=
  Elem.node "transactionShares".toList none
    [Elem.node "value".toList (some "abc".toList) []]

/-- Witness for C1 at a concrete container whose value text `abc` fails
numeric parsing: the extraction resolves the parse failure to `0.0`. -/
theorem c1_extract_value_amended_witness :
    (iterElem sharesAbc).find?
        (fun e => "transactionShares".toList.isSuffixOf e.tag) = some sharesAbc
    ∧ extract_value_via_iteration sharesAbc "transactionShares".toList = some 0 := by
  refine ⟨rfl, ?_⟩
  have h := ((c1_extract_value_amended sharesAbc "transactionShares".toList).2
      sharesAbc rfl).2 (Elem.node "value".toList (some "abc".toList) []) rfl
  exact h.2.1 (by decide) (by decide)

/-! ## C8: metadata extraction -/

/-- Two lists that are not suffixes of one another cannot both be suffixes of
the same list. -/
theorem suffix_exclusive {s₁ s₂ t : List Char} (h₁ : ¬ s₁ <:+ s₂) (h₂ : ¬ s₂ <:+ s₁)
    (hs : s₁.isSuffixOf t = true) : s₂.isSuffixOf t = false := by
  rw [List.isSuffixOf_iff_suffix] at hs
  rw [Bool.eq_false_iff]
  intro hc
  rw [List.isSuffixOf_iff_suffix] at hc
  rcases List.suffix_or_suffix_of_suffix hs hc with h | h
  · exact h₁ h
  · exact h₂ h

/-- The tag-match-and-truthy-text tests of two suffix-incomparable suffixes
cannot both fire on the same element. -/
theorem metaPred_absurd {s₁ s₂ : List Char} {e : Elem}
    (hp : (s₁.isSuffixOf e.tag && textTruthy e.text) = true)
    (hq : (s₂.isSuffixOf e.tag && textTruthy e.text) = true)
    (h₁ : ¬ s₁ <:+ s₂) (h₂ : ¬ s₂ <:+ s₁) : False := by
  have hfalse : (s₂.isSuffixOf e.tag && textTruthy e.text) = false := by
    rw [suffix_exclusive h₁ h₂ (Bool.and_eq_true .. |>.mp hp).1, Bool.false_and]
  exact Bool.false_ne_true (hfalse ▸ hq)

/-- How one metadata-loop iteration acts on each of the four tracked fields:
the field whose test fires is overwritten, the other three are unchanged. -/
theorem metaStep_fields (a : MetaAcc) (e : Elem) :
    (metaStep a e).issuer_name =
      (if "issuerName".toList.isSuffixOf e.tag && textTruthy e.text then
        trimChars (e.text.getD []) else a.issuer_name)
    ∧ (metaStep a e).issuer_ticker =
      (if "issuerTradingSymbol".toList.isSuffixOf e.tag && textTruthy e.text then
        toUpperChars (trimChars (e.text.getD [])) else a.issuer_ticker)
    ∧ (metaStep a e).filer_name =
      (if "rptOwnerName".toList.isSuffixOf e.tag && textTruthy e.text then
        trimChars (e.text.getD []) else a.filer_name)
    ∧ (metaStep a e).filer_relationship =
      (if "rptOwnerTitle".toList.isSuffixOf e.tag && textTruthy e.text then
        trimChars (e.text.getD []) else a.filer_relationship) := by
  refine ⟨?_, ?_, ?_, ?_⟩
  · unfold metaStep
    split_ifs <;> rfl
  · by_cases h2 : ("issuerTradingSymbol".toList.isSuffixOf e.tag && textTruthy e.text) = true
    · have h1 : ¬ ("issuerName".toList.isSuffixOf e.tag && textTruthy e.text) = true :=
        fun h => metaPred_absurd h h2 (by decide) (by decide)
      unfold metaStep
      simp only [if_neg h1, if_pos h2]
    · unfold metaStep
      simp only [if_neg h2]
      split_ifs <;> rfl
  · by_cases h3 : ("rptOwnerName".toList.isSuffixOf e.tag && textTruthy e.text) = true
    · have h1 : ¬ ("issuerName".toList.isSuffixOf e.tag && textTruthy e.text) = true :=
        fun h => metaPred_absurd h h3 (by decide) (by decide)
      have h2 : ¬ ("issuerTradingSymbol".toList.isSuffixOf e.tag && textTruthy e.text) = true :=
        fun h => metaPred_absurd h h3 (by decide) (by decide)
      unfold metaStep
      simp only [if_neg h1, if_neg h2, if_pos h3]
    · unfold metaStep
      simp only [if_neg h3]
      split_ifs <;> rfl
  · by_cases h4 : ("rptOwnerTitle".toList.isSuffixOf e.tag && textTruthy e.text) = true
    · have h1 : ¬ ("issuerName".toList.isSuffixOf e.tag && textTruthy e.text) = true :=
        fun h => metaPred_absurd h h4 (by decide) (by decide)
      have h2 : ¬ ("issuerTradingSymbol".toList.isSuffixOf e.tag && textTruthy e.text) = true :=
        fun h => metaPred_absurd h h4 (by decide) (by decide)
      have h3 : ¬ ("rptOwnerName".toList.isSuffixOf e.tag && textTruthy e.text) = true :=
        fun h => metaPred_absurd h h4 (by decide) (by decide)
      unfold metaStep
      simp only [if_neg h1, if_neg h2, if_neg h3, if_pos h4]
    · unfold metaStep
      simp only [if_neg h4]
      split_ifs <;> rfl

/-- A fold that conditionally overwrites a field keeps the value coming from
the last matching element, or the start value if none matches. -/
theorem foldl_metaStep_proj (proj : MetaAcc → List Char) (p : Elem → Bool)
    (f : Elem → List Char)
    (hstep : ∀ a e, proj (metaStep a e) = if p e then f e else proj a)
    (l : List Elem) (a : MetaAcc) :
    proj (l.foldl metaStep a) = ((l.reverse.find? p).map f).getD (proj a) := by
  induction l generalizing a with
  | nil => rfl
  | cons e es ih =>
    rw [List.foldl_cons, List.reverse_cons, List.find?_append, ih]
    cases h : es.reverse.find? p with
    | some x => simp
    | none =>
      simp only [Option.none_or, hstep]
      by_cases hp : p e
      · simp [List.find?_cons, hp]
      · simp [List.find?_cons, hp]

/-- A filing with two `issuerName` elements carrying different texts. -/
def rootC8 : Elem :=
  .node "ownershipDocument".toList none
    [.node "issuerName".toList (some "A".toList) [],
     .node "issuerName".toList (some "B".toList) []]

/-- C8 counterexample: on a document whose first `issuerName` element says
`A` and whose second says `B`, the metadata scan reports `B` — a later
same-suffix element does overwrite the value, refuting the first-occurrence
claim. -/
theorem c8_metadata_counterexample :
    ((iterElem rootC8).find?
        (fun e => "issuerName".toList.isSuffixOf e.tag && textTruthy e.text)).map
      (fun e => trimChars (e.text.getD [])) = some "A".toList
    ∧ (scanMetadata rootC8).issuer_name = "B".toList
    ∧ "B".toList ≠ "A".toList := by decide

/-- C8 amended: each FilingMetadata field — issuer name, issuer ticker
(uppercased), filer name, filer relationship — is taken from the **last**
element in document order whose tag suffix matches (`issuerName`,
`issuerTradingSymbol`, `rptOwnerName`, `rptOwnerTitle`) with non-empty text;
every later matching element overwrites the value, and the sentinel defaults
apply when no element matches. -/
theorem c8_metadata_last_wins (root : Elem) :
    (scanMetadata root).issuer_name =
      (((iterElem root).reverse.find?
          (fun e => "issuerName".toList.isSuffixOf e.tag && textTruthy e.text)).map
        (fun e => trimChars (e.text.getD []))).getD "UNKNOWN".toList
    ∧ (scanMetadata root).issuer_ticker =
      (((iterElem root).reverse.find?
          (fun e => "issuerTradingSymbol".toList.isSuffixOf e.tag && textTruthy e.text)).map
        (fun e => toUpperChars (trimChars (e.text.getD [])))).getD "N/A".toList
    ∧ (scanMetadata root).filer_name =
      (((iterElem root).reverse.find?
          (fun e => "rptOwnerName".toList.isSuffixOf e.tag && textTruthy e.text)).map
        (fun e => trimChars (e.text.getD []))).getD "UNKNOWN".toList
    ∧ (scanMetadata root).filer_relationship =
      (((iterElem root).reverse.find?
          (fun e => "rptOwnerTitle".toList.isSuffixOf e.tag && textTruthy e.text)).map
        (fun e => trimChars (e.text.getD []))).getD "N/A".toList := by
  refine ⟨?_, ?_, ?_, ?_⟩
  · exact foldl_metaStep_proj MetaAcc.issuer_name _ _
      (fun a e => (metaStep_fields a e).1) (iterElem root) _
  · exact foldl_metaStep_proj MetaAcc.issuer_ticker _ _
      (fun a e => (metaStep_fields a e).2.1) (iterElem root) _
  · exact foldl_metaStep_proj MetaAcc.filer_name _ _
      (fun a e => (metaStep_fields a e).2.2.1) (iterElem root) _
  · exact foldl_metaStep_proj MetaAcc.filer_relationship _ _
      (fun a e => (metaStep_fields a e).2.2.2) (iterElem root) _

/-! ## C4, C5, C9: the transaction pipeline -/

/-- Every trade a single transaction emits satisfies the record invariants:
code within `TARGET_CODES`, `value = shares * price`, `is_value_trade` iff
the code is a value code, and value trades meet the minimum-value filter. -/
theorem processTransaction_emit (m : MetaAcc) (tx : Elem) (t : Trade)
    (h : processTransaction m tx = .ok (some t)) :
    t.code ∈ TARGET_CODES
    ∧ t.value = t.shares * t.price
    ∧ (t.is_value_trade = true ↔ t.code ∈ VALUE_CODES)
    ∧ (t.is_value_trade = true → MIN_TRADE_VALUE ≤ t.value) := by
  simp only [processTransaction] at h
  split at h
  · exact absurd h (by simp)
  · next hcode =>
    split at h
    · exact absurd h (by simp)
    · split at h
      · next s p hmatch =>
        split at h
        · next hfilter =>
          simp only [Except.ok.injEq, Option.some.injEq] at h
          subst h
          refine ⟨not_not.mp hcode, rfl, by simp, fun _ => ?_⟩
          have := (Bool.and_eq_true .. |>.mp hfilter).2
          simpa using this
        · split at h
          · next hnv =>
            simp only [Except.ok.injEq, Option.some.injEq] at h
            subst h
            refine ⟨not_not.mp hcode, rfl, by simp, fun hv => ?_⟩
            simp only [Bool.not_eq_true'] at hnv
            rw [hnv] at hv
            cases hv
          · exact absurd h (by simp)
      · exact absurd h (by simp)

/-- Every trade in the loop's output comes from one of the transactions. -/
theorem processTransactions_mem (m : MetaAcc) (txs : List Elem) (t : Trade)
    (h : t ∈ processTransactions m txs) :
    ∃ tx ∈ txs, processTransaction m tx = .ok (some t) := by
  induction txs with
  | nil => simp [processTransactions] at h
  | cons tx txs ih =>
    simp only [processTransactions] at h
    cases hp : processTransaction m tx with
    | error e => rw [hp] at h; simp at h
    | ok o =>
      cases o with
      | none =>
        rw [hp] at h
        obtain ⟨u, hu, he⟩ := ih h
        exact ⟨u, List.mem_cons_of_mem tx hu, he⟩
      | some v =>
        rw [hp] at h
        rcases List.mem_cons.mp h with rfl | hmem
        · exact ⟨tx, List.mem_cons_self tx txs, hp⟩
        · obtain ⟨u, hu, he⟩ := ih hmem
          exact ⟨u, List.mem_cons_of_mem tx hu, he⟩

/-- Every trade `parse_form4_url` returns was emitted by some transaction
under some metadata. -/
theorem parseForm4_mem (buildTree : List Char → Option Elem)
    (fetched : Option (List Char)) (t : Trade)
    (h : t ∈ parseForm4 buildTree fetched) :
    ∃ (m : MetaAcc) (tx : Elem), processTransaction m tx = .ok (some t) := by
  cases fetched with
  | none => simp [parseForm4] at h
  | some txt =>
    simp only [parseForm4] at h
    cases hc : clean_and_extract_xml txt with
    | none => simp only [hc] at h; simp at h
    | some cleaned =>
      simp only [hc] at h
      cases hb : buildTree cleaned with
      | none => simp only [hb] at h; simp at h
      | some root =>
        simp only [hb] at h
        simp only [processFiling] at h
        cases hr : deriveRelationship root (scanMetadata root).filer_relationship with
        | error e => simp only [hr] at h; simp at h
        | ok rel =>
          simp only [hr] at h
          obtain ⟨tx, _, he⟩ := processTransactions_mem _ _ _ h
          exact ⟨_, tx, he⟩

/-- C4: every Trade record `parse_form4_url` produces has a code in the
target set `{P, S, M, X, V}`, satisfies `value = shares * price` exactly, and
has `is_value_trade` true exactly when the code is in `{P, S}`. -/
theorem c4_trade_postcondition (buildTree : List Char → Option Elem)
    (fetched : Option (List Char)) (t : Trade)
    (h : t ∈ parseForm4 buildTree fetched) :
    t.code ∈ TARGET_CODES
    ∧ t.value = t.shares * t.price
    ∧ (t.is_value_trade = true ↔ t.code ∈ VALUE_CODES) := by
  obtain ⟨m, tx, he⟩ := parseForm4_mem buildTree fetched t h
  have hp := processTransaction_emit m tx t he
  exact ⟨hp.1, hp.2.1, hp.2.2.1⟩

/-- A well-formed `M`-code transaction: 5 shares, an empty price container
(price resolves to `0.0`). -/
def txM : Elem :=
  .node "nonDerivativeTransaction".toList none
    [.node "transactionCode".toList (some "M".toList) [],
     .node "transactionShares".toList none
       [.node "value".toList (some " 5 ".toList) []],
     .node "transactionPricePerShare".toList none []]

/-- A transaction with a target code but no `transactionShares` container at
all: shares extraction yields Python `None`, and `shares * price` raises
`TypeError` inside the loop. -/
def txBad : Elem :=
  .node "nonDerivativeTransaction".toList none
    [.node "transactionCode".toList (some "M".toList) []]

/-- A filing with the single good transaction `txM`. -/
def rootOk : Elem := .node "ownershipDocument".toList none [txM]

/-- A filing whose first transaction is good and whose second poisons the
loop. -/
def rootPartial : Elem := .node "ownershipDocument".toList none [txM, txBad]

/-- The trade built from `txM` with all-default metadata. -/
def tradeM : Trade :=
  ⟨"N/A".toList, "M".toList, "N/A".toList, 5, 0, 0,
   "UNKNOWN".toList, "UNKNOWN".toList, "Other".toList, false⟩

/-- A wrapper text whose embedded XML block the sanitizer accepts. -/
def wrapTxt : List Char := "<ownershipDocument>x</ownershipDocument>".toList

/-- Witness for C4: the concrete filing `rootOk` yields `tradeM`, which
satisfies the three postconditions. -/
theorem c4_trade_postcondition_witness :
    tradeM ∈ parseForm4 (fun _ => some rootOk) (some wrapTxt)
    ∧ (tradeM.code ∈ TARGET_CODES
      ∧ tradeM.value = tradeM.shares * tradeM.price
      ∧ (tradeM.is_value_trade = true ↔ tradeM.code ∈ VALUE_CODES)) :=
  ⟨by decide, c4_trade_postcondition (fun _ => some rootOk) (some wrapTxt) tradeM (by decide)⟩

/-- C5: (a) a transaction with a target code whose extracted shares value is
exactly `0.0` is skipped; (b) every emitted record with `is_value_trade`
true meets `value ≥ MIN_TRADE_VALUE`; (c) a reached transaction with a
non-value target code (M/X/V) whose shares and price extractions succeed
with non-zero shares is retained unconditionally, even at value `0`. -/
theorem c5_transaction_filtering :
    (∀ (m : MetaAcc) (tx : Elem),
      (extractCodeDate tx).code ∈ TARGET_CODES →
      extract_value_via_iteration tx "transactionShares".toList = some 0 →
      processTransaction m tx = .ok none)
    ∧ (∀ (buildTree : List Char → Option Elem) (fetched : Option (List Char)) (t : Trade),
        t ∈ parseForm4 buildTree fetched → t.is_value_trade = true →
        MIN_TRADE_VALUE ≤ t.value)
    ∧ (∀ (m : MetaAcc) (tx : Elem) (s p : ℚ),
        (extractCodeDate tx).code ∈ TARGET_CODES →
        (extractCodeDate tx).code ∉ VALUE_CODES →
        extract_value_via_iteration tx "transactionShares".toList = some s →
        s ≠ 0 →
        extract_value_via_iteration tx "transactionPricePerShare".toList = some p →
        ∃ t, processTransaction m tx = .ok (some t)
          ∧ t.is_value_trade = false ∧ t.value = s * p) := by
  refine ⟨?_, ?_, ?_⟩
  · intro m tx hcode hzero
    simp only [processTransaction]
    rw [if_neg (not_not_intro hcode), if_pos hzero]
  · intro bt f t h hv
    obtain ⟨m, tx, he⟩ := parseForm4_mem bt f t h
    exact (processTransaction_emit m tx t he).2.2.2 hv
  · intro m tx s p hcode hnv hs hsne hp
    simp only [processTransaction]
    rw [if_neg (not_not_intro hcode)]
    have hnz : ¬ extract_value_via_iteration tx "transactionShares".toList = some 0 := by
      rw [hs]
      exact fun hc => hsne (by injection hc)
    rw [if_neg hnz]
    simp only [hs, hp]
    have hivt : decide ((extractCodeDate tx).code ∈ VALUE_CODES) = false :=
      decide_eq_false hnv
    simp only [hivt, Bool.false_and, Bool.not_false, Bool.false_eq_true, if_false, if_true]
    exact ⟨_, rfl, rfl, rfl⟩

/-- A transaction with a target code whose shares value is literally `0`. -/
def txZero : Elem :=
  .node "nonDerivativeTransaction".toList none
    [.node "transactionCode".toList (some "M".toList) [],
     .node "transactionShares".toList none
       [.node "value".toList (some "0".toList) []]]

/-- All-default filing metadata. -/
def mDefault : MetaAcc :=
  ⟨"UNKNOWN".toList, "N/A".toList, "UNKNOWN".toList, "Other".toList⟩

/-- A `P`-code transaction: 100000 shares at 100, value ten million. -/
def txP : Elem :=
  .node "nonDerivativeTransaction".toList none
    [.node "transactionCode".toList (some "P".toList) [],
     .node "transactionShares".toList none
       [.node "value".toList (some "100,000".toList) []],
     .node "transactionPricePerShare".toList none
       [.node "value".toList (some "100".toList) []]]

/-- A filing with the single transaction `txP`. -/
def rootP : Elem := .node "ownershipDocument".toList none [txP]

/-- The trade built from `txP` with all-default metadata. -/
def tradeP : Trade :=
  ⟨"N/A".toList, "P".toList, "N/A".toList, 100000, 100, 10000000,
   "UNKNOWN".toList, "UNKNOWN".toList, "Other".toList, true⟩

/-- Witness for C5: a zero-share `M` transaction is skipped; the emitted
value trade `tradeP` meets the threshold; the `M` transaction `txM`
(price `0.0`, hence value `0`) is retained. -/
theorem c5_transaction_filtering_witness :
    ((extractCodeDate txZero).code ∈ TARGET_CODES
      ∧ extract_value_via_iteration txZero "transactionShares".toList = some 0
      ∧ processTransaction mDefault txZero = .ok none)
    ∧ (tradeP ∈ parseForm4 (fun _ => some rootP) (some wrapTxt)
      ∧ tradeP.is_value_trade = true
      ∧ MIN_TRADE_VALUE ≤ tradeP.value)
    ∧ ((extractCodeDate txM).code ∈ TARGET_CODES
      ∧ (extractCodeDate txM).code ∉ VALUE_CODES
      ∧ ∃ t, processTransaction mDefault txM = .ok (some t)
          ∧ t.is_value_trade = false ∧ t.value = 5 * 0) :=
  ⟨⟨by decide, by decide,
      c5_transaction_filtering.1 mDefault txZero (by decide) (by decide)⟩,
   ⟨by decide, by decide,
      c5_transaction_filtering.2.1 (fun _ => some rootP) (some wrapTxt) tradeP
        (by decide) (by decide)⟩,
   ⟨by decide, by decide,
      c5_transaction_filtering.2.2 mDefault txM 5 0 (by decide) (by decide)
        (by decide) (by decide) (by decide)⟩⟩

/-- C9 counterexample: in the filing `rootPartial` the second transaction's
shares extraction yields Python `None`, so `shares * price` raises inside
the loop (an extraction-step failure), yet the call resolves to the
**non-empty** list holding the first transaction's trade — not to an empty
list as the claim states. -/
theorem c9_failure_isolation_counterexample :
    processTransaction mDefault txBad = .error ()
    ∧ collectTransactions rootPartial = [txM, txBad]
    ∧ parseForm4 (fun _ => some rootPartial) (some wrapTxt) = [tradeM]
    ∧ ([tradeM] : List Trade) ≠ [] :=
  ⟨rfl, rfl, by decide, by decide⟩

/-- C9 amended: `parse_form4_url` never raises past its boundary, and a
failed download, failed sanitization, or failed tree parse each resolve to
the empty trade list; but an extraction-step failure inside the transaction
loop resolves to the trades accumulated **before** the failing transaction
(possibly non-empty), dropping the remaining transactions. -/
theorem c9_failure_isolation_amended (buildTree : List Char → Option Elem) :
    parseForm4 buildTree none = []
    ∧ (∀ txt, clean_and_extract_xml txt = none →
        parseForm4 buildTree (some txt) = [])
    ∧ (∀ txt cleaned, clean_and_extract_xml txt = some cleaned →
        buildTree cleaned = none → parseForm4 buildTree (some txt) = [])
    ∧ (∀ (m : MetaAcc) (pre : List Elem) (tx : Elem) (post : List Elem),
        (∀ u ∈ pre, processTransaction m u ≠ .error ()) →
        processTransaction m tx = .error () →
        processTransactions m (pre ++ tx :: post) = processTransactions m pre) := by
  refine ⟨rfl, ?_, ?_, ?_⟩
  · intro txt h
    simp only [parseForm4, h]
  · intro txt cleaned hc hb
    simp only [parseForm4, hc, hb]
  · intro m pre tx post hpre herr
    induction pre with
    | nil =>
      simp only [List.nil_append, processTransactions, herr]
    | cons u pre ih =>
      simp only [List.cons_append, processTransactions]
      cases hu : processTransaction m u with
      | error e =>
        cases e
        exact absurd hu (hpre u (List.mem_cons_self u pre))
      | ok o =>
        have ih' := ih fun v hv => hpre v (List.mem_cons_of_mem u hv)
        cases o with
        | none =>
          simp only [List.append_eq]
          exact ih'
        | some w =>
          simp only [List.append_eq, ih']

/-- Witness for C9 on a concrete sanitization failure: a text with no
opening marker yields the empty trade list. -/
theorem c9_failure_isolation_amended_witness :
    clean_and_extract_xml "no marker here".toList = none
    ∧ parseForm4 (fun _ => some rootOk) (some "no marker here".toList) = [] :=
  ⟨by decide,
    (c9_failure_isolation_amended (fun _ => some rootOk)).2.1
      "no marker here".toList (by decide)⟩
